import Mathlib

/-! Verification of the streaming-indicator core of the tzutrader repository
(src/src/indicators/).  The Rust code is shallowly embedded: machine floats
(`f64`) are modelled as exact rationals; `f64::NAN` is modelled by the junk
constant `nan64`, which the code only stores in slots that are overwritten
before ever being read; fixed arrays `[T; N]` are modelled as functions
`Nat → T` of which only indices `< N` are used; `i32` cursors are modelled as
`Int`.  Rust's `%` is truncated division, which agrees with Lean's `Int.emod`
on the non-negative dividends arising in well-formed states. -/

namespace Tzu

/-- Model of `f64::NAN`: an arbitrary junk rational.  The source only writes
it into slots that are overwritten before being read. -/
def nan64 : ℚ := 0

/-- State of `BaseIndicator<T, N>` (src/src/indicators/base.rs): a circular
buffer with an `i32` write cursor `pos` (−1 before the first append), a
`filled` flag, and the backing array `data`. -/
structure BaseIndicator (T : Type) where
  pos : Int
  filled : Bool
  data : Nat → T

/-- Constructor `BaseIndicator::new`; `d` models `T::default()`. -/
def BaseIndicator.new (d : T) : BaseIndicator T :=
  { pos := -1, filled := false, data := fun _ => d }

/-- Method `BaseIndicator::update` (base.rs lines 42-53): advance the cursor
modulo `N`, mark `filled` when the cursor wraps back to slot 0, write `value`
into the slot, and return `Some(value)`. -/
def BaseIndicator.update (N : Nat) (b : BaseIndicator T) (value : T) :
    Option T × BaseIndicator T :=
  let pos : Int := if b.pos = -1 then 0 else (b.pos + 1) % (N : Int)
  let filled : Bool :=
    if b.pos = -1 then b.filled
    else if (b.pos + 1) % (N : Int) = 0 then true else b.filled
  (some value,
   { pos := pos, filled := filled,
     data := fun i => if i = pos.toNat then value else b.data i })

/-- Method `BaseIndicator::get` (base.rs lines 55-66). -/
def BaseIndicator.get (N : Nat) (b : BaseIndicator T) (key : Int) : Option T :=
  if b.pos = -1 then none
  else if 0 < key then none
  else if key < -(N : Int) then none
  else if b.filled = false ∧ key < -b.pos then none
  else some (b.data ((b.pos + (N : Int) + key) % (N : Int)).toNat)

/-- Method `BaseIndicator::reset` (base.rs lines 68-72): the cursor and flag
are cleared but the data array is kept (the clearing line is commented out in
the source). -/
def BaseIndicator.reset (b : BaseIndicator T) : BaseIndicator T :=
  { b with pos := -1, filled := false }

/-- Fold `update` over a list of appended values, keeping the final state. -/
def BaseIndicator.appendAll (N : Nat) (b : BaseIndicator T) (l : List T) :
    BaseIndicator T :=
  l.foldl (fun b v => (BaseIndicator.update N b v).2) b

/-- State of `MA<P, N>` (src/src/indicators/ma.rs): running-sum moving
average with an accumulator, a window `prevs` of the last `P` inputs, and an
output buffer of capacity `N`. -/
structure MA where
  accum : ℚ
  length : Nat
  data : BaseIndicator ℚ
  prevs : Nat → ℚ
  pos : Nat

/-- Constructor `MA::new`. -/
def MA.new : MA :=
  { accum := 0, length := 0, data := BaseIndicator.new 0,
    prevs := fun _ => nan64, pos := 0 }

/-- Method `MA::update` (ma.rs lines 65-82). -/
def MA.update (P S : Nat) (m : MA) (value : ℚ) : Option ℚ × MA :=
  let lengthAccum :=
    if m.length < P then (m.length + 1, m.accum)
    else (m.length, m.accum - m.prevs m.pos)
  let length := lengthAccum.1
  let prevs := fun i => if i = m.pos then value else m.prevs i
  let accum := lengthAccum.2 + value
  let pos := (m.pos + 1) % P
  if length < P then
    (none, { accum := accum, length := length, data := m.data,
             prevs := prevs, pos := pos })
  else
    let data := (BaseIndicator.update S m.data (accum / (P : ℚ))).2
    (BaseIndicator.get S data 0,
     { accum := accum, length := length, data := data,
       prevs := prevs, pos := pos })

/-- Method `MA::get` (ma.rs lines 84-86): delegates to the output buffer. -/
def MA.get (S : Nat) (m : MA) (key : Int) : Option ℚ :=
  BaseIndicator.get S m.data key

/-- Method `MA::reset` (ma.rs lines 88-94): `prevs` is kept (the clearing
line is commented out in the source). -/
def MA.reset (m : MA) : MA :=
  { accum := 0, length := 0, data := m.data.reset, prevs := m.prevs, pos := 0 }

/-- Run `MA::update` over a list of inputs, keeping the final state. -/
def MA.run (P S : Nat) : MA → List ℚ → MA
  | m, [] => m
  | m, v :: l => MA.run P S (MA.update P S m v).2 l

/-- Run `MA::update` over a list of inputs, collecting the returned values. -/
def MA.outputs (P S : Nat) : MA → List ℚ → List (Option ℚ)
  | _, [] => []
  | m, v :: l => (MA.update P S m v).1 :: MA.outputs P S (MA.update P S m v).2 l

/-- State of `EMA<P, S>` (src/src/indicators/ema.rs). -/
structure EMA where
  alpha : ℚ
  length : Nat
  prev : ℚ
  data : BaseIndicator ℚ

/-- Constructor `EMA::with_smoothing`. -/
def EMA.withSmoothing (P : Nat) (smoothing : ℚ) : EMA :=
  { alpha := smoothing / (1 + (P : ℚ)), length := 0, prev := 0,
    data := BaseIndicator.new 0 }

/-- Constructor `EMA::new` (smoothing 2.0). -/
def EMA.new (P : Nat) : EMA := EMA.withSmoothing P 2

/-- Method `EMA::update` (ema.rs lines 45-60). -/
def EMA.update (P S : Nat) (e : EMA) (value : ℚ) : Option ℚ × EMA :=
  let length := e.length + 1
  if length < P then
    (none, { e with length := length, prev := e.prev + value })
  else if length = P then
    let prev := (e.prev + value) / (P : ℚ)
    let data := (BaseIndicator.update S e.data prev).2
    (BaseIndicator.get S data 0, { e with length := length, prev := prev, data := data })
  else
    let prev := value * e.alpha + e.prev * (1 - e.alpha)
    let data := (BaseIndicator.update S e.data prev).2
    (BaseIndicator.get S data 0, { e with length := length, prev := prev, data := data })

/-- Method `EMA::get`. -/
def EMA.get (S : Nat) (e : EMA) (key : Int) : Option ℚ :=
  BaseIndicator.get S e.data key

/-- Method `EMA::reset`. -/
def EMA.reset (e : EMA) : EMA :=
  { e with length := 0, prev := 0, data := e.data.reset }

/-- Run `EMA::update` over a list of inputs, keeping the final state. -/
def EMA.run (P S : Nat) : EMA → List ℚ → EMA
  | e, [] => e
  | e, v :: l => EMA.run P S (EMA.update P S e v).2 l

/-- Run `EMA::update` over a list of inputs, collecting the returned values. -/
def EMA.outputs (P S : Nat) : EMA → List ℚ → List (Option ℚ)
  | _, [] => []
  | e, v :: l => (EMA.update P S e v).1 :: EMA.outputs P S (EMA.update P S e v).2 l

/-- State of `MV<P, S>` (src/src/indicators/mv.rs): moving variance built on
an internal `MA<P, 1>`. -/
structure MV where
  ma : MA
  prevs : Nat → ℚ
  length : Nat
  pos : Nat
  data : BaseIndicator ℚ

/-- Constructor `MV::new`. -/
def MV.new : MV :=
  { ma := MA.new, prevs := fun _ => nan64, length := 0, pos := 0,
    data := BaseIndicator.new 0 }

/-- Method `MV::update` (mv.rs lines 43-64).  The source calls
`self.ma.get(0).unwrap()`; the unwrap is modelled by the outer `Option`:
`none` means the call would panic. -/
def MV.update (P S : Nat) (s : MV) (value : ℚ) : Option (Option ℚ × MV) :=
  let length := if s.length < P then s.length + 1 else s.length
  let prevs := fun i => if i = s.pos then value else s.prevs i
  let pos := (s.pos + 1) % P
  let ma := (MA.update P 1 s.ma value).2
  if length < P then
    some (none, { ma := ma, prevs := prevs, length := length, pos := pos,
                  data := s.data })
  else
    match MA.get 1 ma 0 with
    | none => none
    | some mean =>
      let accum := (List.range P).foldl
        (fun a i => a + (prevs i - mean) * (prevs i - mean)) 0
      let data := (BaseIndicator.update S s.data (accum / (P : ℚ))).2
      some (BaseIndicator.get S data 0,
            { ma := ma, prevs := prevs, length := length, pos := pos,
              data := data })

/-- Method `MV::reset` (clears everything, including `prevs`). -/
def MV.reset (s : MV) : MV :=
  { ma := s.ma.reset, prevs := fun _ => nan64, length := 0, pos := 0,
    data := s.data.reset }

/-- Event on an `MV` instance: a public `update` or `reset` call. -/
inductive MVEv where
  | upd : ℚ → MVEv
  | rst : MVEv

/-- One public call on an `MV`; on the (never-reached) panic branch of
`update` the state is left unchanged so that runs stay total. -/
def MV.step (P S : Nat) (s : MV) : MVEv → MV
  | MVEv.upd v =>
    match MV.update P S s v with
    | some r => r.2
    | none => s
  | MVEv.rst => MV.reset s

/-- Run a list of public calls on an `MV` from a given state. -/
def MV.runEv (P S : Nat) : MV → List MVEv → MV
  | s, [] => s
  | s, e :: l => MV.runEv P S (MV.step P S s e) l

/-- Record `Ohlcv` (src/src/types.rs); the Rust field `open` is spelled
`open_` because `open` is a Lean keyword. -/
structure Ohlcv where
  timestamp : Int
  open_ : ℚ
  high : ℚ
  low : ℚ
  close : ℚ
  volume : ℚ

/-- Record `StochResult` (src/src/indicators/stoch.rs). -/
structure StochResult where
  k : ℚ
  d : ℚ
deriving DecidableEq

/-- State of `STOCH<K, D, S>` (src/src/indicators/stoch.rs): raw high / low /
close windows of length `K`, plus a `MA<D, 1>` smoothing of %K. -/
structure STOCH where
  high_window : Nat → ℚ
  low_window : Nat → ℚ
  close_window : Nat → ℚ
  length : Nat
  pos : Nat
  k_ma : MA
  data : BaseIndicator StochResult

/-- Constructor `STOCH::new`. -/
def STOCH.new : STOCH :=
  { high_window := fun _ => nan64, low_window := fun _ => nan64,
    close_window := fun _ => nan64, length := 0, pos := 0,
    k_ma := MA.new, data := BaseIndicator.new ⟨0, 0⟩ }

/-- Method `STOCH::update` (stoch.rs lines 98-136).  The `for i in 1..K` loop
maximising the high and minimising the low is modelled as a fold over
`List.range (K - 1)`; when the high-low range is zero %K falls back to 50,
and when the %D average is not yet ready `unwrap_or(k)` substitutes %K. -/
def STOCH.update (K D S : Nat) (s : STOCH) (value : Ohlcv) :
    Option StochResult × STOCH :=
  let length := if s.length < K then s.length + 1 else s.length
  let high_window := fun i => if i = s.pos then value.high else s.high_window i
  let low_window := fun i => if i = s.pos then value.low else s.low_window i
  let close_window := fun i => if i = s.pos then value.close else s.close_window i
  let pos := (s.pos + 1) % K
  let s1 : STOCH :=
    { high_window := high_window, low_window := low_window,
      close_window := close_window, length := length, pos := pos,
      k_ma := s.k_ma, data := s.data }
  if length < K then (none, s1)
  else
    let hl := (List.range (K - 1)).foldl
      (fun (a : ℚ × ℚ) i =>
        (if high_window (i + 1) > a.1 then high_window (i + 1) else a.1,
         if low_window (i + 1) < a.2 then low_window (i + 1) else a.2))
      (high_window 0, low_window 0)
    let range := hl.1 - hl.2
    let k : ℚ := if range = 0 then 50 else 100 * (value.close - hl.2) / range
    let k_ma := (MA.update D 1 s.k_ma k).2
    let d := (MA.get 1 k_ma 0).getD k
    let data := (BaseIndicator.update S s1.data ⟨k, d⟩).2
    (BaseIndicator.get S data 0, { s1 with k_ma := k_ma, data := data })

/-- Method `STOCH::get`. -/
def STOCH.get (S : Nat) (s : STOCH) (key : Int) : Option StochResult :=
  BaseIndicator.get S s.data key

/-- Run `STOCH::update` over a list of bars, keeping the final state. -/
def STOCH.run (K D S : Nat) : STOCH → List Ohlcv → STOCH
  | s, [] => s
  | s, v :: l => STOCH.run K D S (STOCH.update K D S s v).2 l

/-- Run `STOCH::update` over a list of bars, collecting the returned values. -/
def STOCH.outputs (K D S : Nat) : STOCH → List Ohlcv → List (Option StochResult)
  | _, [] => []
  | s, v :: l =>
    (STOCH.update K D S s v).1 :: STOCH.outputs K D S (STOCH.update K D S s v).2 l

/-- State of `MACD<SHORT, LONG, DIFF, S>` (src/src/indicators/macd.rs). -/
structure MACD where
  short_ema : EMA
  long_ema : EMA
  diff_ema : EMA
  counter : Nat
  macd : BaseIndicator ℚ
  signal : BaseIndicator ℚ
  hist : BaseIndicator ℚ

/-- Constructor `MACD::new`. -/
def MACD.new (SHORT LONG DIFF : Nat) : MACD :=
  { short_ema := EMA.new SHORT, long_ema := EMA.new LONG,
    diff_ema := EMA.new DIFF, counter := 0,
    macd := BaseIndicator.new 0, signal := BaseIndicator.new 0,
    hist := BaseIndicator.new 0 }

/-- Method `MACD::update` (macd.rs lines 102-131). -/
def MACD.update (SHORT LONG DIFF S : Nat) (m : MACD) (value : ℚ) :
    Option ℚ × MACD :=
  let counter := m.counter + 1
  let short_ema := (EMA.update SHORT 1 m.short_ema value).2
  let long_ema := (EMA.update LONG 1 m.long_ema value).2
  let m1 : MACD :=
    { m with counter := counter, short_ema := short_ema, long_ema := long_ema }
  let start := if SHORT < LONG then LONG else SHORT
  if counter < start then (none, m1)
  else
    match EMA.get 1 short_ema 0, EMA.get 1 long_ema 0 with
    | some sv, some lv =>
      let diff := sv - lv
      let diff_ema := (EMA.update DIFF 1 m.diff_ema diff).2
      let signal_val := EMA.get 1 diff_ema 0
      let macd := (BaseIndicator.update S m.macd diff).2
      let m2 : MACD := { m1 with diff_ema := diff_ema, macd := macd }
      (match signal_val with
       | some sig =>
         let signal := (BaseIndicator.update S m.signal sig).2
         let hist := (BaseIndicator.update S m.hist (diff - sig)).2
         (BaseIndicator.get S macd 0, { m2 with signal := signal, hist := hist })
       | none =>
         (BaseIndicator.get S macd 0, m2))
    | _, _ => (none, m1)

/-- Method `MACD::get`: delegates to the MACD-line buffer. -/
def MACD.get (S : Nat) (m : MACD) (key : Int) : Option ℚ :=
  BaseIndicator.get S m.macd key

/-- Run `MACD::update` over a list of inputs, keeping the final state. -/
def MACD.run (SHORT LONG DIFF S : Nat) : MACD → List ℚ → MACD
  | m, [] => m
  | m, v :: l => MACD.run SHORT LONG DIFF S (MACD.update SHORT LONG DIFF S m v).2 l

/-- Run `MACD::update` over a list of inputs, collecting the returned values. -/
def MACD.outputs (SHORT LONG DIFF S : Nat) : MACD → List ℚ → List (Option ℚ)
  | _, [] => []
  | m, v :: l =>
    (MACD.update SHORT LONG DIFF S m v).1 ::
      MACD.outputs SHORT LONG DIFF S (MACD.update SHORT LONG DIFF S m v).2 l

end Tzu


namespace Tzu

theorem BaseIndicator.update_fst {T : Type} (N : Nat) (b : BaseIndicator T) (v : T) :
    (BaseIndicator.update N b v).1 = some v := rfl

theorem BaseIndicator.update_snd_pos {T : Type} (N : Nat) (b : BaseIndicator T) (v : T) :
    ((BaseIndicator.update N b v).2).pos =
      if b.pos = -1 then 0 else (b.pos + 1) % (N : Int) := rfl

theorem BaseIndicator.update_snd_filled {T : Type} (N : Nat) (b : BaseIndicator T) (v : T) :
    ((BaseIndicator.update N b v).2).filled =
      if b.pos = -1 then b.filled
      else if (b.pos + 1) % (N : Int) = 0 then true else b.filled := rfl

theorem BaseIndicator.update_snd_data {T : Type} (N : Nat) (b : BaseIndicator T) (v : T) :
    ((BaseIndicator.update N b v).2).data = fun i =>
      if i = (if b.pos = -1 then 0 else (b.pos + 1) % (N : Int)).toNat then v
      else b.data i := rfl

theorem BaseIndicator.update_pos_bounds {T : Type} (N : Nat) (hN : 0 < N)
    (b : BaseIndicator T) (v : T) :
    0 ≤ ((BaseIndicator.update N b v).2).pos ∧
      ((BaseIndicator.update N b v).2).pos < (N : Int) := by
  rw [BaseIndicator.update_snd_pos]
  by_cases h : b.pos = -1
  · rw [if_pos h]
    exact ⟨le_refl 0, by exact_mod_cast hN⟩
  · rw [if_neg h]
    exact ⟨Int.emod_nonneg _ (by exact_mod_cast hN.ne'),
      Int.emod_lt_of_pos _ (by exact_mod_cast hN)⟩

theorem BaseIndicator.get_eq_some {T : Type} (N : Nat) (b : BaseIndicator T) (key : Int)
    (h1 : b.pos ≠ -1) (h2 : ¬ 0 < key) (h3 : ¬ key < -(N : Int))
    (h4 : ¬ (b.filled = false ∧ key < -b.pos)) :
    BaseIndicator.get N b key =
      some (b.data ((b.pos + (N : Int) + key) % (N : Int)).toNat) := by
  unfold BaseIndicator.get
  rw [if_neg h1, if_neg h2, if_neg h3, if_neg h4]

theorem BaseIndicator.get_update_zero {T : Type} (N : Nat) (hN : 0 < N)
    (b : BaseIndicator T) (v : T) :
    BaseIndicator.get N (BaseIndicator.update N b v).2 0 = some v := by
  obtain ⟨h0, h1⟩ := BaseIndicator.update_pos_bounds N hN b v
  rw [BaseIndicator.get_eq_some N _ 0 (by omega) (by omega) (by omega) (by omega)]
  rw [BaseIndicator.update_snd_data]
  have hmod : (((BaseIndicator.update N b v).2).pos + (N : Int) + 0) % (N : Int) =
      ((BaseIndicator.update N b v).2).pos := by
    rw [add_zero, show ((BaseIndicator.update N b v).2).pos + (N : Int) =
      ((BaseIndicator.update N b v).2).pos + (N : Int) * 1 by ring,
      Int.add_mul_emod_self_left, Int.emod_eq_of_lt h0 h1]
  rw [hmod, BaseIndicator.update_snd_pos]
  simp

theorem BaseIndicator.appendAll_concat {T : Type} (N : Nat) (b : BaseIndicator T)
    (l : List T) (v : T) :
    BaseIndicator.appendAll N b (l ++ [v]) =
      (BaseIndicator.update N (BaseIndicator.appendAll N b l) v).2 := by
  simp [BaseIndicator.appendAll, List.foldl_append]

/-- Contents of a buffer freshly filled from the empty state: after appending
the non-empty list `l` (of length `k`), the cursor is `(k-1) % N`, the buffer
is filled iff `k > N`, and relative index `-j` reads the `(j+1)`-th most
recent append, for every `j < min k N`. -/
theorem BaseIndicator.appendAll_char {T : Type} (N : Nat) (hN : 0 < N) (d : T)
    (l : List T) (hl : l ≠ []) :
    (BaseIndicator.appendAll N (BaseIndicator.new d) l).pos
        = ((l.length : Int) - 1) % (N : Int) ∧
    ((BaseIndicator.appendAll N (BaseIndicator.new d) l).filled
        = decide (N < l.length)) ∧
    ∀ j : Nat, j < min l.length N →
      BaseIndicator.get N (BaseIndicator.appendAll N (BaseIndicator.new d) l)
          (-(j : Int)) = some (l.getD (l.length - 1 - j) d) := by
  induction l using List.reverseRecOn with
  | nil => exact absurd rfl hl
  | append_singleton l v ih =>
    rw [BaseIndicator.appendAll_concat]
    rcases eq_or_ne l [] with rfl | hl'
    · have h1 : (BaseIndicator.appendAll N (BaseIndicator.new d) ([] : List T))
          = BaseIndicator.new d := rfl
      have h2 : (BaseIndicator.new d : BaseIndicator T).pos = -1 := rfl
      refine ⟨?_, ?_, ?_⟩
      · rw [h1, BaseIndicator.update_snd_pos, if_pos h2]
        simp
      · rw [h1, BaseIndicator.update_snd_filled, if_pos h2]
        have h3 : ¬ N < ([] ++ [v] : List T).length := by
          simp only [List.nil_append, List.length_cons, List.length_nil]
          omega
        rw [decide_eq_false h3]
        rfl
      · intro j hj
        simp only [List.nil_append, List.length_cons, List.length_nil] at hj ⊢
        have hj0 : j = 0 := by omega
        subst hj0
        simp only [Nat.cast_zero, neg_zero]
        rw [h1, BaseIndicator.get_update_zero N hN]
        rfl
    · obtain ⟨hpos, hfill, hget⟩ := ih hl'
      set a := BaseIndicator.appendAll N (BaseIndicator.new d) l with ha
      set k := l.length with hk
      have hk1 : 1 ≤ k := by
        have := List.length_pos.mpr hl'
        omega
      have hNz : (N : Int) ≠ 0 := by exact_mod_cast hN.ne'
      have hNpos : (0 : Int) < N := by exact_mod_cast hN
      have hapos0 : 0 ≤ a.pos := by rw [hpos]; exact Int.emod_nonneg _ hNz
      have haposN : a.pos < (N : Int) := by rw [hpos]; exact Int.emod_lt_of_pos _ hNpos
      have hane : a.pos ≠ -1 := by omega
      have hlen : (l ++ [v]).length = k + 1 := by simp
      have hpos' : ((BaseIndicator.update N a v).2).pos = (k : Int) % (N : Int) := by
        rw [BaseIndicator.update_snd_pos, if_neg hane, hpos,
          Int.emod_add_emod, show ((k : Int) - 1 + 1) = (k : Int) by ring]
      obtain ⟨hb0, hbN⟩ := BaseIndicator.update_pos_bounds N hN a v
      refine ⟨?_, ?_, ?_⟩
      · rw [hpos', hlen]
        congr 1
        push_cast
        ring
      · rw [BaseIndicator.update_snd_filled, if_neg hane, hpos,
          Int.emod_add_emod, show ((k : Int) - 1 + 1) = (k : Int) by ring, hlen]
        by_cases hz : (k : Int) % (N : Int) = 0
        · rw [if_pos hz]
          have hdvd : (N : Int) ∣ (k : Int) := Int.dvd_of_emod_eq_zero hz
          have hNk' : (N : Int) ≤ (k : Int) := Int.le_of_dvd (by exact_mod_cast hk1) hdvd
          have hNk : N ≤ k := by exact_mod_cast hNk'
          have : N < k + 1 := by omega
          simp [this]
        · rw [if_neg hz, hfill]
          have hkN : k ≠ N := by
            rintro rfl
            exact hz Int.emod_self
          simp only [decide_eq_decide]
          omega
      · intro j hj
        rw [hlen] at hj
        rcases Nat.eq_zero_or_pos j with rfl | hj1
        · simp only [Nat.cast_zero, neg_zero]
          rw [BaseIndicator.get_update_zero N hN]
          congr 1
          rw [List.getD_eq_getElem?_getD, hlen, show k + 1 - 1 - 0 = k by omega, hk,
            List.getElem?_concat_length]
          rfl
        · obtain ⟨j', rfl⟩ : ∃ j', j = j' + 1 := ⟨j - 1, by omega⟩
          have hjN : j' + 1 < N := lt_of_lt_of_le hj (min_le_right _ _)
          have hjk : j' + 1 ≤ k := by
            have := lt_of_lt_of_le hj (min_le_left _ _)
            omega
          have hfilled' : ((BaseIndicator.update N a v).2).filled = false →
              (k : Int) % (N : Int) = (k : Int) ∧ k < N := by
            intro hf
            rw [BaseIndicator.update_snd_filled, if_neg hane] at hf
            by_cases hz : (a.pos + 1) % (N : Int) = 0
            · rw [if_pos hz] at hf
              simp at hf
            · rw [if_neg hz, hfill] at hf
              have hkN : ¬ N < k := by simpa using hf
              have hkN' : k ≠ N := by
                rintro rfl
                apply hz
                rw [hpos, Int.emod_add_emod, show ((k : Int) - 1 + 1) = (k : Int) by ring]
                exact Int.emod_self
              have hklt : k < N := by omega
              exact ⟨Int.emod_eq_of_lt (by positivity) (by exact_mod_cast hklt), hklt⟩
          have hkey1 : ¬ (0 : Int) < -((j' + 1 : Nat) : Int) := by push_cast; omega
          have hkey2 : ¬ -((j' + 1 : Nat) : Int) < -(N : Int) := by push_cast; omega
          have hkey3 : ¬ (((BaseIndicator.update N a v).2).filled = false ∧
              -((j' + 1 : Nat) : Int) < -((BaseIndicator.update N a v).2).pos) := by
            rintro ⟨hf, hlt⟩
            obtain ⟨hmod, hkN⟩ := hfilled' hf
            rw [hpos', hmod] at hlt
            push_cast at hlt
            omega
          rw [BaseIndicator.get_eq_some N _ _ (by omega) hkey1 hkey2 hkey3]
          have hget' := hget j' (by omega)
          have holdkey1 : ¬ (0 : Int) < -((j' : Nat) : Int) := by push_cast; omega
          have holdkey2 : ¬ -((j' : Nat) : Int) < -(N : Int) := by push_cast; omega
          have holdkey3 : ¬ (a.filled = false ∧ -((j' : Nat) : Int) < -a.pos) := by
            rintro ⟨hf, hlt⟩
            rw [hfill] at hf
            have hkN : ¬ N < k := by simpa using hf
            have hposval : a.pos = (k : Int) - 1 := by
              rw [hpos]
              exact Int.emod_eq_of_lt (by push_cast; omega) (by push_cast; omega)
            rw [hposval] at hlt
            push_cast at hlt
            omega
          rw [BaseIndicator.get_eq_some N a _ hane holdkey1 holdkey2 holdkey3] at hget'
          have hslot : (((BaseIndicator.update N a v).2).pos + (N : Int) +
                -((j' + 1 : Nat) : Int)) % (N : Int)
              = (a.pos + (N : Int) + -((j' : Nat) : Int)) % (N : Int) := by
            rw [BaseIndicator.update_snd_pos, if_neg hane, add_assoc, Int.emod_add_emod]
            congr 1
            push_cast
            ring
          have hnotwrite : ((a.pos + (N : Int) + -((j' : Nat) : Int)) % (N : Int)).toNat ≠
              (if a.pos = -1 then 0 else (a.pos + 1) % (N : Int)).toNat := by
            rw [if_neg hane]
            intro heq
            have e1 : 0 ≤ (a.pos + (N : Int) + -((j' : Nat) : Int)) % (N : Int) :=
              Int.emod_nonneg _ hNz
            have e2 : 0 ≤ (a.pos + 1) % (N : Int) := Int.emod_nonneg _ hNz
            have heqI : (a.pos + (N : Int) + -((j' : Nat) : Int)) % (N : Int)
                = (a.pos + 1) % (N : Int) := by omega
            have hzero := Int.emod_eq_emod_iff_emod_sub_eq_zero.mp heqI
            rw [show a.pos + (N : Int) + -((j' : Nat) : Int) - (a.pos + 1)
                = (N : Int) - ((j' : Nat) + 1) by ring] at hzero
            rw [Int.emod_eq_of_lt (by push_cast; omega) (by push_cast; omega)] at hzero
            push_cast at hzero
            omega
          rw [hslot]
          simp only [BaseIndicator.update_snd_data]
          rw [if_neg hnotwrite, hget']
          congr 1
          rw [hlen, show k + 1 - 1 - (j' + 1) = k - 1 - j' by omega,
            List.getD_eq_getElem?_getD, List.getD_eq_getElem?_getD,
            List.getElem?_append]
          rw [if_pos (show k - 1 - j' < l.length by omega)]

/-- C1: the spec claims that for k >= N appends `read(key)` is available iff
-N < key <= 0 and that a misused index never yields a value from the wrong
buffer slot; the code violates this: a capacity-3 buffer that has received 4
appends answers key = -3 (|key| = N, out of bounds) with Some(4), the value
of the most recent slot, identical to read(0). -/
theorem C1_read_bound_violation :
    BaseIndicator.get 3 (BaseIndicator.appendAll 3 (BaseIndicator.new (0 : Int))
        [1, 2, 3, 4]) (-3) = some 4 ∧
    BaseIndicator.get 3 (BaseIndicator.appendAll 3 (BaseIndicator.new (0 : Int))
        [1, 2, 3, 4]) 0 = some 4 := by decide

/-- C10: for every prior state and every input v, BaseIndicator::update
returns Some(v), and get(0) immediately afterwards returns Some(v): the raw
history buffer, used directly as an indicator, has no warmup of its own. -/
theorem C10_base_no_warmup {T : Type} (N : Nat) (hN : 0 < N)
    (b : BaseIndicator T) (v : T) :
    (BaseIndicator.update N b v).1 = some v ∧
    BaseIndicator.get N (BaseIndicator.update N b v).2 0 = some v :=
  ⟨BaseIndicator.update_fst N b v, BaseIndicator.get_update_zero N hN b v⟩

theorem C10_base_no_warmup_witness :
    0 < 2 ∧
    ((BaseIndicator.update 2 (BaseIndicator.appendAll 2
        (BaseIndicator.new (0 : Int)) [5]) 7).1 = some 7 ∧
     BaseIndicator.get 2 (BaseIndicator.update 2 (BaseIndicator.appendAll 2
        (BaseIndicator.new (0 : Int)) [5]) 7).2 0 = some 7) :=
  ⟨by decide, C10_base_no_warmup 2 (by decide) _ 7⟩

/-- C6: after N+1 appends of v1..v(N+1) to a capacity-N buffer, read(0)
returns v(N+1) and read(-(N-1)) returns v2 (v1 has been evicted); in general
slot -j then holds the (j+1)-th most recent append, so each append past N
evicts exactly the oldest retained value. -/
theorem C6_overwrite_correctness {T : Type} (N : Nat) (hN : 0 < N) (d : T)
    (l : List T) (hl : l.length = N + 1) :
    BaseIndicator.get N (BaseIndicator.appendAll N (BaseIndicator.new d) l) 0
        = some (l.getD N d) ∧
    BaseIndicator.get N (BaseIndicator.appendAll N (BaseIndicator.new d) l)
        (-((N : Int) - 1)) = some (l.getD 1 d) ∧
    ∀ j : Nat, j < N →
      BaseIndicator.get N (BaseIndicator.appendAll N (BaseIndicator.new d) l)
          (-(j : Int)) = some (l.getD (N - j) d) := by
  have hl0 : l ≠ [] := by
    intro h
    rw [h] at hl
    simp at hl
  obtain ⟨-, -, hget⟩ := BaseIndicator.appendAll_char N hN d l hl0
  have hgen : ∀ j : Nat, j < N →
      BaseIndicator.get N (BaseIndicator.appendAll N (BaseIndicator.new d) l)
        (-(j : Int)) = some (l.getD (N - j) d) := by
    intro j hj
    have h := hget j (by omega)
    rw [hl, show N + 1 - 1 - j = N - j by omega] at h
    exact h
  refine ⟨?_, ?_, hgen⟩
  · have h := hgen 0 hN
    simpa using h
  · have h := hgen (N - 1) (by omega)
    rw [show ((N - 1 : Nat) : Int) = (N : Int) - 1 by omega,
      show N - (N - 1) = 1 by omega] at h
    exact h

theorem C6_overwrite_correctness_witness :
    (0 < 3 ∧ ([10, 20, 30, 40] : List Int).length = 3 + 1) ∧
    (BaseIndicator.get 3 (BaseIndicator.appendAll 3 (BaseIndicator.new (0 : Int))
        [10, 20, 30, 40]) 0 = some (([10, 20, 30, 40] : List Int).getD 3 0) ∧
     BaseIndicator.get 3 (BaseIndicator.appendAll 3 (BaseIndicator.new (0 : Int))
        [10, 20, 30, 40]) (-((3 : Int) - 1))
        = some (([10, 20, 30, 40] : List Int).getD 1 0) ∧
     ∀ j : Nat, j < 3 →
       BaseIndicator.get 3 (BaseIndicator.appendAll 3 (BaseIndicator.new (0 : Int))
          [10, 20, 30, 40]) (-(j : Int))
          = some (([10, 20, 30, 40] : List Int).getD (3 - j) 0)) :=
  ⟨⟨by decide, by decide⟩, C6_overwrite_correctness 3 (by decide) 0 [10, 20, 30, 40] (by decide)⟩

theorem MA.ma_update_length (P S : Nat) (m : MA) (v : ℚ) :
    ((MA.update P S m v).2).length =
      if m.length < P then m.length + 1 else m.length := by
  by_cases h0 : m.length < P
  · by_cases h1 : m.length + 1 < P <;> simp [MA.update, h0, h1]
  · simp [MA.update, h0]

theorem MA.ma_update_none_iff (P S : Nat) (hS : 0 < S) (m : MA) (v : ℚ) :
    (MA.update P S m v).1 = none ↔
      (if m.length < P then m.length + 1 else m.length) < P := by
  by_cases h0 : m.length < P
  · by_cases h1 : m.length + 1 < P
    · simp [MA.update, h0, h1]
    · simp [MA.update, h0, h1, BaseIndicator.get_update_zero S hS]
  · simp [MA.update, h0, BaseIndicator.get_update_zero S hS]

theorem MA.ma_outputs_none_iff_aux (P S : Nat) (hS : 0 < S) :
    ∀ (l : List ℚ) (m : MA) (c : Nat), m.length = min c P →
      ∀ i, i < l.length →
        ((MA.outputs P S m l).getD i (some 0) = none ↔ c + i + 1 < P) := by
  intro l
  induction l with
  | nil =>
    intro m c hm i hi
    simp at hi
  | cons v l ih =>
    intro m c hm i hi
    have hlen : ((MA.update P S m v).2).length = min (c + 1) P := by
      rw [MA.ma_update_length, hm]
      by_cases hc : min c P < P
      · rw [if_pos hc]
        omega
      · rw [if_neg hc]
        omega
    cases i with
    | zero =>
      have h := MA.ma_update_none_iff P S hS m v
      rw [hm] at h
      simp only [MA.outputs, List.getD_cons_zero]
      rw [h]
      by_cases hc : min c P < P
      · rw [if_pos hc]
        omega
      · rw [if_neg hc]
        omega
    | succ i' =>
      simp only [MA.outputs, List.getD_cons_succ]
      have h := ih (MA.update P S m v).2 (c + 1) hlen i' (by simp at hi; omega)
      rw [h]
      omega

theorem EMA.ema_update_length (P S : Nat) (e : EMA) (v : ℚ) :
    ((EMA.update P S e v).2).length = e.length + 1 := by
  by_cases h0 : e.length + 1 < P
  · simp [EMA.update, h0]
  · by_cases h1 : e.length + 1 = P <;> simp [EMA.update, h0, h1]

theorem EMA.ema_update_none_iff (P S : Nat) (hS : 0 < S) (e : EMA) (v : ℚ) :
    (EMA.update P S e v).1 = none ↔ e.length + 1 < P := by
  by_cases h0 : e.length + 1 < P
  · simp [EMA.update, h0]
  · by_cases h1 : e.length + 1 = P <;>
      simp [EMA.update, h0, h1, BaseIndicator.get_update_zero S hS]

theorem EMA.ema_outputs_none_iff_aux (P S : Nat) (hS : 0 < S) :
    ∀ (l : List ℚ) (e : EMA) (c : Nat), e.length = c →
      ∀ i, i < l.length →
        ((EMA.outputs P S e l).getD i (some 0) = none ↔ c + i + 1 < P) := by
  intro l
  induction l with
  | nil =>
    intro e c he i hi
    simp at hi
  | cons v l ih =>
    intro e c he i hi
    have hlen : ((EMA.update P S e v).2).length = c + 1 := by
      rw [EMA.ema_update_length, he]
    cases i with
    | zero =>
      have h := EMA.ema_update_none_iff P S hS e v
      rw [he] at h
      simp only [EMA.outputs, List.getD_cons_zero]
      rw [h]
    | succ i' =>
      simp only [EMA.outputs, List.getD_cons_succ]
      have h := ih (EMA.update P S e v).2 (c + 1) hlen i' (by simp at hi; omega)
      rw [h]
      omega

/-- C4: for a period-P primitive indicator (MA and EMA), on any input
sequence, update returns unavailable exactly on the first P-1 calls and an
available value on the P-th and every later call (the 1-indexed call i+1 is
unavailable iff i+1 < P). -/
theorem C4_warmup_exact (P S : Nat) (hP : 0 < P) (hS : 0 < S) (l : List ℚ) :
    ∀ i, i < l.length →
      ((MA.outputs P S MA.new l).getD i (some 0) = none ↔ i + 1 < P) ∧
      ((EMA.outputs P S (EMA.new P) l).getD i (some 0) = none ↔ i + 1 < P) := by
  intro i hi
  constructor
  · have h := MA.ma_outputs_none_iff_aux P S hS l MA.new 0 (by simp [MA.new]) i hi
    simpa using h
  · have h := EMA.ema_outputs_none_iff_aux P S hS l (EMA.new P) 0 rfl i hi
    simpa using h

theorem C4_warmup_exact_witness :
    (0 < 2 ∧ 0 < 1) ∧
    (∀ i, i < ([1, 2, 3] : List ℚ).length →
      ((MA.outputs 2 1 MA.new [1, 2, 3]).getD i (some 0) = none ↔ i + 1 < 2) ∧
      ((EMA.outputs 2 1 (EMA.new 2) [1, 2, 3]).getD i (some 0) = none ↔ i + 1 < 2)) :=
  ⟨⟨by decide, by decide⟩, C4_warmup_exact 2 1 (by decide) (by decide) [1, 2, 3]⟩

/-- C9: a capacity-3 period-3 moving average fed [5,4,3,6] produces outputs
[unavailable, unavailable, 4.0, 13/3], and after the 4th update get(-1)
returns 4.0 while get(-2) is unavailable (only 2 stored outputs so far). -/
theorem C9_ma_capacity3_period3_scenario :
    MA.outputs 3 3 MA.new [5, 4, 3, 6] = [none, none, some 4, some (13 / 3)] ∧
    MA.get 3 (MA.run 3 3 MA.new [5, 4, 3, 6]) (-1) = some 4 ∧
    MA.get 3 (MA.run 3 3 MA.new [5, 4, 3, 6]) (-2) = none := by
  refine ⟨?_, ?_, ?_⟩ <;>
    · norm_num [MA.outputs, MA.update, MA.new, MA.run, MA.get,
        BaseIndicator.update, BaseIndicator.get, BaseIndicator.new, nan64]

theorem BaseIndicator.appendAll_cons {T : Type} (N : Nat) (b : BaseIndicator T)
    (v : T) (l : List T) :
    BaseIndicator.appendAll N b (v :: l) =
      BaseIndicator.appendAll N (BaseIndicator.update N b v).2 l := rfl

theorem MA.outputs_length (P S : Nat) :
    ∀ (l : List ℚ) (m : MA), (MA.outputs P S m l).length = l.length := by
  intro l
  induction l with
  | nil => intro m; rfl
  | cons v l ih =>
    intro m
    simp only [MA.outputs, List.length_cons, ih]

theorem MA.update_data_char (P S : Nat) (hS : 0 < S) (m : MA) (v : ℚ) :
    ((MA.update P S m v).2).data =
      (match (MA.update P S m v).1 with
       | none => m.data
       | some x => (BaseIndicator.update S m.data x).2) := by
  by_cases h0 : m.length < P
  · by_cases h1 : m.length + 1 < P
    · simp [MA.update, h0, h1]
    · simp [MA.update, h0, h1, BaseIndicator.get_update_zero S hS]
  · simp [MA.update, h0, BaseIndicator.get_update_zero S hS]

theorem MA.run_data (P S : Nat) (hS : 0 < S) :
    ∀ (l : List ℚ) (m : MA),
      (MA.run P S m l).data =
        BaseIndicator.appendAll S m.data ((MA.outputs P S m l).filterMap id) := by
  intro l
  induction l with
  | nil => intro m; rfl
  | cons v l ih =>
    intro m
    have hd := MA.update_data_char P S hS m v
    cases hfst : (MA.update P S m v).1 with
    | none =>
      rw [hfst] at hd
      simp only [MA.run, MA.outputs, hfst, List.filterMap_cons, id_eq]
      rw [ih, hd]
    | some x =>
      rw [hfst] at hd
      simp only [MA.run, MA.outputs, hfst, List.filterMap_cons, id_eq]
      rw [ih, hd, BaseIndicator.appendAll_cons]

/-- A list of optional values whose `none` entries are exactly the indices
below `t` projects, via `filterMap id`, onto its available suffix. -/
theorem getD_filterMap_of_none_prefix {α : Type} :
    ∀ (o : List (Option α)) (t : Nat) (d : α),
      (∀ i, i < o.length → (o.getD i none = none ↔ i < t)) → t ≤ o.length →
      (o.filterMap id).length = o.length - t ∧
      (∀ i, t ≤ i → i < o.length →
        o.getD i none = some ((o.filterMap id).getD (i - t) d)) := by
  intro o
  induction o with
  | nil =>
    intro t d hiff ht
    refine ⟨by simp, ?_⟩
    intro i h1 h2
    simp at h2
  | cons x o ih =>
    intro t d hiff ht
    cases t with
    | zero =>
      have hx : x ≠ none := by
        have h := hiff 0 (by simp)
        simp at h
        exact h
      obtain ⟨a, rfl⟩ := Option.ne_none_iff_exists'.mp hx
      have hiff' : ∀ i, i < o.length → (o.getD i none = none ↔ i < 0) := by
        intro i hi
        have h := hiff (i + 1) (by simp; omega)
        simpa using h
      obtain ⟨hlen, hidx⟩ := ih 0 d hiff' (by omega)
      refine ⟨by simp [List.filterMap_cons, hlen], ?_⟩
      intro i h1 h2
      cases i with
      | zero => simp [List.filterMap_cons]
      | succ i' =>
        simp only [List.getD_cons_succ, List.filterMap_cons, id_eq]
        have h := hidx i' (by omega) (by simp at h2; omega)
        simpa using h
    | succ t' =>
      have hx : x = none := by
        have h := hiff 0 (by simp)
        rw [List.getD_cons_zero] at h
        exact h.mpr (by omega)
      subst hx
      have hiff' : ∀ i, i < o.length → (o.getD i none = none ↔ i < t') := by
        intro i hi
        have h := hiff (i + 1) (by simp; omega)
        simpa using h
      have ht' : t' ≤ o.length := by
        simp only [List.length_cons] at ht
        omega
      obtain ⟨hlen, hidx⟩ := ih t' d hiff' ht'
      refine ⟨?_, ?_⟩
      · simp only [List.filterMap_cons, id_eq, List.length_cons, hlen]
        omega
      · intro i h1 h2
        obtain ⟨i', rfl⟩ : ∃ i', i = i' + 1 := ⟨i - 1, by omega⟩
        simp only [List.getD_cons_succ, List.filterMap_cons, id_eq]
        have h := hidx i' (by omega) (by simp at h2; omega)
        rw [show i' + 1 - (t' + 1) = i' - t' by omega]
        exact h

/-- C3 (corrected claim): during warmup `MA::update` writes nothing at all
into the output buffer (no sentinel exists), so after m < P updates the
buffer is still in its never-appended state; the buffer stores exactly the
available outputs in order, and because warmup is an initial prefix of the
stream, every retained offset -j still addresses the output of calendar step
m-j (the entry at position m-1-j of the update-output sequence). -/
theorem C3_warmup_writes_nothing (P S : Nat) (hP : 0 < P) (hS : 0 < S)
    (l : List ℚ) :
    (l.length < P → (MA.run P S MA.new l).data.pos = -1) ∧
    ((MA.run P S MA.new l).data =
      BaseIndicator.appendAll S (BaseIndicator.new 0)
        ((MA.outputs P S MA.new l).filterMap id)) ∧
    (∀ j : Nat, j < min ((MA.outputs P S MA.new l).filterMap id).length S →
      MA.get S (MA.run P S MA.new l) (-(j : Int)) =
        (MA.outputs P S MA.new l).getD (l.length - 1 - j) none) := by
  have hdata := MA.run_data P S hS l MA.new
  have hnewdata : (MA.new).data = BaseIndicator.new 0 := rfl
  rw [hnewdata] at hdata
  have hOlen : (MA.outputs P S MA.new l).length = l.length := MA.outputs_length P S l MA.new
  have hnone := MA.ma_outputs_none_iff_aux P S hS l MA.new 0 (by simp [MA.new])
  have hiff : ∀ i, i < (MA.outputs P S MA.new l).length →
      ((MA.outputs P S MA.new l).getD i none = none ↔ i < min (P - 1) l.length) := by
    intro i hi
    rw [hOlen] at hi
    have h := hnone i hi
    rw [List.getD_eq_getElem _ _ (by omega), ← List.getD_eq_getElem _ (some 0) (by omega)]
    rw [h]
    omega
  obtain ⟨hAlen, hAidx⟩ := getD_filterMap_of_none_prefix
    (MA.outputs P S MA.new l) (min (P - 1) l.length) 0 hiff (by omega)
  rw [hOlen] at hAlen
  refine ⟨?_, hdata, ?_⟩
  · intro hm
    have hA : (MA.outputs P S MA.new l).filterMap id = [] := by
      rw [← List.length_eq_zero, hAlen]
      omega
    rw [hdata, hA]
    rfl
  · intro j hj
    have hc : 0 < ((MA.outputs P S MA.new l).filterMap id).length := by omega
    have hAne : (MA.outputs P S MA.new l).filterMap id ≠ [] := by
      intro h
      rw [h] at hc
      simp at hc
    obtain ⟨-, -, hchar⟩ := BaseIndicator.appendAll_char S hS (0 : ℚ)
      ((MA.outputs P S MA.new l).filterMap id) hAne
    have hget := hchar j hj
    have hlhs : MA.get S (MA.run P S MA.new l) (-(j : Int)) =
        some (((MA.outputs P S MA.new l).filterMap id).getD
          (((MA.outputs P S MA.new l).filterMap id).length - 1 - j) 0) := by
      rw [MA.get, hdata]
      exact hget
    have hidx := hAidx (l.length - 1 - j) (by omega) (by omega)
    rw [hlhs, hidx]
    congr 2
    omega

theorem C3_counterexample :
    (MA.run 3 1 MA.new [(5 : ℚ)]).length = 1 ∧
    (MA.run 3 1 MA.new [(5 : ℚ)]).data.pos = -1 := by
  constructor
  · rfl
  · rfl

theorem C3_warmup_writes_nothing_witness :
    (0 < 3 ∧ 0 < 3) ∧
    ((([5, 4, 3, 6] : List ℚ).length < 3 →
        (MA.run 3 3 MA.new [5, 4, 3, 6]).data.pos = -1) ∧
     ((MA.run 3 3 MA.new [5, 4, 3, 6]).data =
        BaseIndicator.appendAll 3 (BaseIndicator.new 0)
          ((MA.outputs 3 3 MA.new [5, 4, 3, 6]).filterMap id)) ∧
     (∀ j : Nat, j < min ((MA.outputs 3 3 MA.new [5, 4, 3, 6]).filterMap id).length 3 →
        MA.get 3 (MA.run 3 3 MA.new [5, 4, 3, 6]) (-(j : Int)) =
          (MA.outputs 3 3 MA.new [5, 4, 3, 6]).getD
            (([5, 4, 3, 6] : List ℚ).length - 1 - j) none)) :=
  ⟨⟨by decide, by decide⟩, C3_warmup_writes_nothing 3 3 (by decide) (by decide) [5, 4, 3, 6]⟩

/-- Observational equivalence of two buffer states: equal cursor and flag, a
representable cursor, and equal contents on every slot that can be read
before being rewritten (all slots when filled, slots up to the cursor
otherwise). -/
def BaseEquiv (N : Nat) (a b : BaseIndicator T) : Prop :=
  a.pos = b.pos ∧ a.filled = b.filled ∧
  (a.pos = -1 ∨ (0 ≤ a.pos ∧ a.pos < (N : Int))) ∧
  (a.filled = true → ∀ j, j < N → a.data j = b.data j) ∧
  (a.filled = false → ∀ j : Nat, j < N → (j : Int) ≤ a.pos → a.data j = b.data j)

theorem BaseEquiv.base_reset_new {T : Type} (N : Nat) (b : BaseIndicator T) (d : T) :
    BaseEquiv N b.reset (BaseIndicator.new d) := by
  refine ⟨rfl, rfl, Or.inl rfl, ?_, ?_⟩
  · intro hf
    exact absurd hf (by simp [BaseIndicator.reset])
  · intro _ j _ hj
    have hr : (b.reset).pos = -1 := rfl
    rw [hr] at hj
    omega

theorem newly_filled_pos {T : Type} (N : Nat) (a : BaseIndicator T)
    (hwf : a.pos = -1 ∨ (0 ≤ a.pos ∧ a.pos < (N : Int)))
    (h1 : a.pos ≠ -1) (h2 : (a.pos + 1) % (N : Int) = 0) :
    a.pos = (N : Int) - 1 := by
  rcases hwf with h | ⟨h3, h4⟩
  · exact absurd h h1
  · by_contra hne
    have hlt : a.pos + 1 < (N : Int) := by omega
    rw [Int.emod_eq_of_lt (by omega) hlt] at h2
    omega

theorem BaseEquiv.base_update_equiv {T : Type} (N : Nat) (hN : 0 < N) {a b : BaseIndicator T}
    (h : BaseEquiv N a b) (v : T) :
    BaseEquiv N (BaseIndicator.update N a v).2 (BaseIndicator.update N b v).2 := by
  obtain ⟨hpos, hfill, hwf, hfull, hpart⟩ := h
  obtain ⟨hb0, hbN⟩ := BaseIndicator.update_pos_bounds N hN a v
  rw [BaseIndicator.update_snd_pos] at hb0 hbN
  have hpos' : ((BaseIndicator.update N a v).2).pos
      = ((BaseIndicator.update N b v).2).pos := by
    rw [BaseIndicator.update_snd_pos, BaseIndicator.update_snd_pos, hpos]
  have hfill' : ((BaseIndicator.update N a v).2).filled
      = ((BaseIndicator.update N b v).2).filled := by
    rw [BaseIndicator.update_snd_filled, BaseIndicator.update_snd_filled, hpos, hfill]
  refine ⟨hpos', hfill', ?_, ?_, ?_⟩
  · rw [BaseIndicator.update_snd_pos]
    exact Or.inr ⟨hb0, hbN⟩
  · intro hf j hj
    rw [BaseIndicator.update_snd_data]
    conv_rhs => rw [BaseIndicator.update_snd_data]
    dsimp only
    rw [← hpos]
    by_cases hw : j = (if a.pos = -1 then 0 else (a.pos + 1) % (N : Int)).toNat
    · rw [if_pos hw, if_pos hw]
    · rw [if_neg hw, if_neg hw]
      rcases eq_or_ne a.filled true with hf0 | hf0
      · exact hfull hf0 j hj
      · have hfeq : a.filled = false := by
          cases hx : a.filled
          · rfl
          · exact absurd hx hf0
        rw [BaseIndicator.update_snd_filled] at hf
        by_cases h1 : a.pos = -1
        · rw [if_pos h1, hfeq] at hf
          exact absurd hf (by simp)
        · rw [if_neg h1] at hf
          by_cases h2 : (a.pos + 1) % (N : Int) = 0
          · have hpN := newly_filled_pos N a hwf h1 h2
            exact hpart hfeq j hj (by omega)
          · rw [if_neg h2, hfeq] at hf
            exact absurd hf (by simp)
  · intro hf j hjN hj
    rw [BaseIndicator.update_snd_data]
    conv_rhs => rw [BaseIndicator.update_snd_data]
    dsimp only
    rw [← hpos]
    rw [BaseIndicator.update_snd_pos] at hj
    by_cases hw : j = (if a.pos = -1 then 0 else (a.pos + 1) % (N : Int)).toNat
    · rw [if_pos hw, if_pos hw]
    · rw [if_neg hw, if_neg hw]
      rw [BaseIndicator.update_snd_filled] at hf
      by_cases h1 : a.pos = -1
      · rw [if_pos h1] at hf
        rw [if_pos h1] at hj hw
        exfalso
        omega
      · rw [if_neg h1] at hf
        by_cases h2 : (a.pos + 1) % (N : Int) = 0
        · rw [if_pos h2] at hf
          exact absurd hf (by simp)
        · rw [if_neg h2] at hf
          have hwa : 0 ≤ a.pos ∧ a.pos < (N : Int) := by
            rcases hwf with hx | hx
            · exact absurd hx h1
            · exact hx
          have hlt : a.pos + 1 < (N : Int) := by
            by_contra hge
            have hx : a.pos + 1 = (N : Int) := by omega
            rw [hx] at h2
            exact h2 Int.emod_self
          have hpe : (a.pos + 1) % (N : Int) = a.pos + 1 :=
            Int.emod_eq_of_lt (by omega) hlt
          rw [if_neg h1, hpe] at hj hw
          exact hpart hf j hjN (by omega)

theorem BaseEquiv.base_get_congr {T : Type} (N : Nat) (hN : 0 < N) {a b : BaseIndicator T}
    (h : BaseEquiv N a b) (key : Int) :
    BaseIndicator.get N a key = BaseIndicator.get N b key := by
  obtain ⟨hpos, hfill, hwf, hfull, hpart⟩ := h
  unfold BaseIndicator.get
  rw [← hpos, ← hfill]
  by_cases h1 : a.pos = -1
  · rw [if_pos h1, if_pos h1]
  rw [if_neg h1, if_neg h1]
  by_cases h2 : 0 < key
  · rw [if_pos h2, if_pos h2]
  rw [if_neg h2, if_neg h2]
  by_cases h3 : key < -(N : Int)
  · rw [if_pos h3, if_pos h3]
  rw [if_neg h3, if_neg h3]
  by_cases h4 : a.filled = false ∧ key < -a.pos
  · rw [if_pos h4, if_pos h4]
  rw [if_neg h4, if_neg h4]
  congr 1
  have hwa : 0 ≤ a.pos ∧ a.pos < (N : Int) := by
    rcases hwf with hx | hx
    · exact absurd hx h1
    · exact hx
  have hs0 : 0 ≤ (a.pos + (N : Int) + key) % (N : Int) :=
    Int.emod_nonneg _ (by exact_mod_cast hN.ne')
  have hsN : (a.pos + (N : Int) + key) % (N : Int) < (N : Int) :=
    Int.emod_lt_of_pos _ (by exact_mod_cast hN)
  rcases eq_or_ne a.filled true with hf | hf
  · exact hfull hf _ (by omega)
  · have hfeq : a.filled = false := by
      cases hx : a.filled
      · rfl
      · exact absurd hx hf
    have hkey : -a.pos ≤ key := by
      push_neg at h4
      have := h4 hfeq
      omega
    have hslot : (a.pos + (N : Int) + key) % (N : Int) = a.pos + key := by
      rw [show a.pos + (N : Int) + key = (a.pos + key) + (N : Int) * 1 by ring,
        Int.add_mul_emod_self_left, Int.emod_eq_of_lt (by omega) (by omega)]
    have hjN : ((a.pos + (N : Int) + key) % (N : Int)).toNat < N := by omega
    have hjle : ((((a.pos + (N : Int) + key) % (N : Int)).toNat : Nat) : Int) ≤ a.pos := by
      rw [hslot]
      omega
    exact hpart hfeq _ hjN hjle

theorem BaseEquiv.appendAll_equiv {T : Type} (N : Nat) (hN : 0 < N) :
    ∀ (l : List T) {a b : BaseIndicator T}, BaseEquiv N a b →
      BaseEquiv N (BaseIndicator.appendAll N a l) (BaseIndicator.appendAll N b l) := by
  intro l
  induction l with
  | nil => intro a b h; exact h
  | cons v l ih =>
    intro a b h
    rw [BaseIndicator.appendAll_cons, BaseIndicator.appendAll_cons]
    exact ih (BaseEquiv.base_update_equiv N hN h v)

/-- Observational equivalence of two MA states: equal scalars, and equal
window contents on every index that can still be read before being
rewritten. -/
def MAEquiv (P S : Nat) (a b : MA) : Prop :=
  a.accum = b.accum ∧ a.length = b.length ∧ a.pos = b.pos ∧
  a.length ≤ P ∧ a.pos < P ∧
  (a.length < P → a.pos = a.length) ∧
  (a.length < P → ∀ j, j < a.pos → a.prevs j = b.prevs j) ∧
  (P ≤ a.length → ∀ j, j < P → a.prevs j = b.prevs j) ∧
  BaseEquiv S a.data b.data

theorem MAEquiv.ma_reset_new (P S : Nat) (hP : 0 < P) (s : MA) :
    MAEquiv P S s.reset MA.new := by
  have hL : s.reset.length = 0 := rfl
  have hp : s.reset.pos = 0 := rfl
  refine ⟨rfl, rfl, rfl, ?_, ?_, ?_, ?_, ?_, ?_⟩
  · rw [hL]
    exact Nat.zero_le _
  · rw [hp]
    exact hP
  · intro _
    rw [hp, hL]
  · intro _ j hj
    rw [hp] at hj
    exact absurd hj (by omega)
  · intro hc
    rw [hL] at hc
    exact absurd hc (by omega)
  · exact BaseEquiv.base_reset_new S s.data 0

theorem MA.ma_update_eq_warm (P S : Nat) (m : MA) (v : ℚ) (h0 : m.length < P)
    (h1 : m.length + 1 < P) :
    MA.update P S m v = (none,
      { accum := m.accum + v, length := m.length + 1, data := m.data,
        prevs := fun i => if i = m.pos then v else m.prevs i,
        pos := (m.pos + 1) % P }) := by
  simp [MA.update, h0, h1]

theorem MA.ma_update_eq_fill (P S : Nat) (m : MA) (v : ℚ) (h0 : m.length < P)
    (h1 : ¬ m.length + 1 < P) :
    MA.update P S m v =
      (BaseIndicator.get S
          (BaseIndicator.update S m.data ((m.accum + v) / (P : ℚ))).2 0,
       { accum := m.accum + v, length := m.length + 1,
         data := (BaseIndicator.update S m.data ((m.accum + v) / (P : ℚ))).2,
         prevs := fun i => if i = m.pos then v else m.prevs i,
         pos := (m.pos + 1) % P }) := by
  simp [MA.update, h0, h1]

theorem MA.update_eq_full (P S : Nat) (m : MA) (v : ℚ) (h0 : ¬ m.length < P) :
    MA.update P S m v =
      (BaseIndicator.get S
          (BaseIndicator.update S m.data
            ((m.accum - m.prevs m.pos + v) / (P : ℚ))).2 0,
       { accum := m.accum - m.prevs m.pos + v, length := m.length,
         data := (BaseIndicator.update S m.data
            ((m.accum - m.prevs m.pos + v) / (P : ℚ))).2,
         prevs := fun i => if i = m.pos then v else m.prevs i,
         pos := (m.pos + 1) % P }) := by
  simp [MA.update, h0]

theorem MAEquiv.ma_update_equiv (P S : Nat) (hP : 0 < P) (hS : 0 < S) {a b : MA}
    (h : MAEquiv P S a b) (v : ℚ) :
    (MA.update P S a v).1 = (MA.update P S b v).1 ∧
      MAEquiv P S (MA.update P S a v).2 (MA.update P S b v).2 := by
  obtain ⟨hacc, hlen, hpos, hlenP, hposP, hwarm, hprevw, hprevf, hbase⟩ := h
  by_cases h0 : a.length < P
  · have h0b : b.length < P := by omega
    have hpe : a.pos = a.length := hwarm h0
    by_cases h1 : a.length + 1 < P
    · have h1b : b.length + 1 < P := by omega
      rw [MA.ma_update_eq_warm P S a v h0 h1, MA.ma_update_eq_warm P S b v h0b h1b]
      refine ⟨rfl, ?_, ?_, ?_, ?_, ?_, ?_, ?_, ?_, ?_⟩
      · dsimp only
        rw [hacc]
      · dsimp only
        rw [hlen]
      · dsimp only
        rw [hpos]
      · dsimp only
        omega
      · dsimp only
        exact Nat.mod_lt _ hP
      · intro _
        dsimp only
        rw [hpe]
        exact Nat.mod_eq_of_lt (by omega)
      · intro _ j hj
        dsimp only at hj ⊢
        have hm : (a.pos + 1) % P = a.pos + 1 := by
          rw [hpe]
          exact Nat.mod_eq_of_lt (by omega)
        rw [hm] at hj
        rw [← hpos]
        by_cases hw : j = a.pos
        · rw [if_pos hw, if_pos hw]
        · rw [if_neg hw, if_neg hw]
          exact hprevw h0 j (by omega)
      · intro hc
        dsimp only at hc
        exact absurd hc (by omega)
      · dsimp only
        exact hbase
    · have h1b : ¬ b.length + 1 < P := by omega
      rw [MA.ma_update_eq_fill P S a v h0 h1, MA.ma_update_eq_fill P S b v h0b h1b]
      refine ⟨?_, ?_, ?_, ?_, ?_, ?_, ?_, ?_, ?_, ?_⟩
      · dsimp only
        rw [BaseIndicator.get_update_zero S hS, BaseIndicator.get_update_zero S hS,
          hacc]
      · dsimp only
        rw [hacc]
      · dsimp only
        rw [hlen]
      · dsimp only
        rw [hpos]
      · dsimp only
        omega
      · dsimp only
        exact Nat.mod_lt _ hP
      · intro hc
        dsimp only at hc
        exact absurd hc (by omega)
      · intro hc j hj
        dsimp only at hc
        exact absurd hc (by omega)
      · intro _ j hj
        dsimp only at hj ⊢
        rw [← hpos]
        by_cases hw : j = a.pos
        · rw [if_pos hw, if_pos hw]
        · rw [if_neg hw, if_neg hw]
          exact hprevw h0 j (by omega)
      · dsimp only
        rw [hacc]
        exact BaseEquiv.base_update_equiv S hS hbase _
  · have h0b : ¬ b.length < P := by omega
    have hppos : a.prevs a.pos = b.prevs b.pos := by
      rw [← hpos]
      exact hprevf (by omega) a.pos hposP
    rw [MA.update_eq_full P S a v h0, MA.update_eq_full P S b v h0b]
    refine ⟨?_, ?_, ?_, ?_, ?_, ?_, ?_, ?_, ?_, ?_⟩
    · dsimp only
      rw [BaseIndicator.get_update_zero S hS, BaseIndicator.get_update_zero S hS,
        hacc, hppos]
    · dsimp only
      rw [hacc, hppos]
    · dsimp only
      rw [hlen]
    · dsimp only
      rw [hpos]
    · dsimp only
      omega
    · dsimp only
      exact Nat.mod_lt _ hP
    · intro hc
      dsimp only at hc
      exact absurd hc (by omega)
    · intro hc j hj
      dsimp only at hc
      exact absurd hc (by omega)
    · intro _ j hj
      dsimp only at hj ⊢
      rw [← hpos]
      by_cases hw : j = a.pos
      · rw [if_pos hw, if_pos hw]
      · rw [if_neg hw, if_neg hw]
        exact hprevf (by omega) j hj
    · dsimp only
      rw [hacc, hppos]
      exact BaseEquiv.base_update_equiv S hS hbase _

theorem MAEquiv.ma_get_congr (P S : Nat) (hS : 0 < S) {a b : MA}
    (h : MAEquiv P S a b) (key : Int) :
    MA.get S a key = MA.get S b key := by
  obtain ⟨-, -, -, -, -, -, -, -, hbase⟩ := h
  exact BaseEquiv.base_get_congr S hS hbase key

theorem MAEquiv.run_equiv (P S : Nat) (hP : 0 < P) (hS : 0 < S) :
    ∀ (l : List ℚ) {a b : MA}, MAEquiv P S a b →
      MA.outputs P S a l = MA.outputs P S b l ∧
        MAEquiv P S (MA.run P S a l) (MA.run P S b l) := by
  intro l
  induction l with
  | nil => intro a b h; exact ⟨rfl, h⟩
  | cons v l ih =>
    intro a b h
    obtain ⟨hfst, hst⟩ := MAEquiv.ma_update_equiv P S hP hS h v
    obtain ⟨ho, hr⟩ := ih hst
    constructor
    · simp only [MA.outputs, hfst, ho]
    · simp only [MA.run]
      exact hr

/-- C5: resetting a History Buffer or an MA and replaying any input sequence
reproduces the outputs of a first pass from the freshly constructed state,
for every update and for every subsequent get call (reset restores the
just-constructed observable state; capacity is a type parameter and is
unchanged). -/
theorem C5_reset_replay {T : Type} (N P S : Nat) (hN : 0 < N) (hP : 0 < P)
    (hS : 0 < S) (d : T) (b : BaseIndicator T) (s : MA)
    (lb : List T) (l : List ℚ) :
    (∀ key, BaseIndicator.get N (BaseIndicator.appendAll N b.reset lb) key =
        BaseIndicator.get N (BaseIndicator.appendAll N (BaseIndicator.new d) lb) key) ∧
    MA.outputs P S s.reset l = MA.outputs P S MA.new l ∧
    (∀ key, MA.get S (MA.run P S s.reset l) key = MA.get S (MA.run P S MA.new l) key) := by
  refine ⟨?_, ?_, ?_⟩
  · intro key
    exact BaseEquiv.base_get_congr N hN
      (BaseEquiv.appendAll_equiv N hN lb (BaseEquiv.base_reset_new N b d)) key
  · exact (MAEquiv.run_equiv P S hP hS l (MAEquiv.ma_reset_new P S hP s)).1
  · intro key
    exact MAEquiv.ma_get_congr P S hS
      (MAEquiv.run_equiv P S hP hS l (MAEquiv.ma_reset_new P S hP s)).2 key

theorem C5_reset_replay_witness :
    (0 < 2 ∧ 0 < 2 ∧ 0 < 1) ∧
    ((∀ key, BaseIndicator.get 2 (BaseIndicator.appendAll 2
        (BaseIndicator.appendAll 2 (BaseIndicator.new (0 : Int)) [1, 2, 3]).reset
        [7, 8]) key =
      BaseIndicator.get 2 (BaseIndicator.appendAll 2 (BaseIndicator.new (0 : Int))
        [7, 8]) key) ∧
     MA.outputs 2 1 (MA.run 2 1 MA.new [5, 6]).reset [1, 2, 3]
        = MA.outputs 2 1 MA.new [1, 2, 3] ∧
     (∀ key, MA.get 1 (MA.run 2 1 (MA.run 2 1 MA.new [5, 6]).reset [1, 2, 3]) key
        = MA.get 1 (MA.run 2 1 MA.new [1, 2, 3]) key)) :=
  ⟨⟨by decide, by decide, by decide⟩,
    C5_reset_replay 2 2 1 (by decide) (by decide) (by decide) 0
      (BaseIndicator.appendAll 2 (BaseIndicator.new (0 : Int)) [1, 2, 3])
      (MA.run 2 1 MA.new [5, 6]) [7, 8] [1, 2, 3]⟩

theorem MA.get_zero_after_update (P : Nat) (m : MA) (v : ℚ)
    (h : P ≤ (if m.length < P then m.length + 1 else m.length)) :
    ∃ x, MA.get 1 (MA.update P 1 m v).2 0 = some x := by
  by_cases h0 : m.length < P
  · have h1 : ¬ m.length + 1 < P := by
      rw [if_pos h0] at h
      omega
    rw [MA.ma_update_eq_fill P 1 m v h0 h1]
    exact ⟨(m.accum + v) / (P : ℚ), BaseIndicator.get_update_zero 1 (by omega) _ _⟩
  · rw [MA.update_eq_full P 1 m v h0]
    exact ⟨(m.accum - m.prevs m.pos + v) / (P : ℚ),
      BaseIndicator.get_update_zero 1 (by omega) _ _⟩

theorem MV.update_isSome (P S : Nat) (s : MV) (v : ℚ)
    (hinv : s.length = s.ma.length) :
    (MV.update P S s v).isSome = true := by
  unfold MV.update
  dsimp only
  by_cases h0 : (if s.length < P then s.length + 1 else s.length) < P
  · rw [if_pos h0]
    rfl
  · rw [if_neg h0]
    have hma : P ≤ (if s.ma.length < P then s.ma.length + 1 else s.ma.length) := by
      rw [← hinv]
      by_cases hc : s.length < P
      · rw [if_pos hc]
        rw [if_pos hc] at h0
        omega
      · rw [if_neg hc]
        rw [if_neg hc] at h0
        omega
    obtain ⟨x, hx⟩ := MA.get_zero_after_update P s.ma v hma
    rw [hx]
    rfl

theorem MV.update_some_fields (P S : Nat) (s : MV) (v : ℚ) (r : Option ℚ × MV)
    (hr : MV.update P S s v = some r) :
    r.2.length = (if s.length < P then s.length + 1 else s.length) ∧
      r.2.ma = (MA.update P 1 s.ma v).2 := by
  unfold MV.update at hr
  dsimp only at hr
  by_cases h0 : (if s.length < P then s.length + 1 else s.length) < P
  · rw [if_pos h0] at hr
    cases hr
    exact ⟨by simp, rfl⟩
  · rw [if_neg h0] at hr
    cases hget : MA.get 1 (MA.update P 1 s.ma v).2 0 with
    | none =>
      rw [hget] at hr
      cases hr
    | some mean =>
      rw [hget] at hr
      cases hr
      exact ⟨rfl, rfl⟩

theorem MV.step_upd (P S : Nat) (s : MV) (v : ℚ) :
    MV.step P S s (MVEv.upd v) =
      (match MV.update P S s v with
       | some r => r.2
       | none => s) := rfl

theorem MV.step_rst (P S : Nat) (s : MV) :
    MV.step P S s MVEv.rst = MV.reset s := rfl

theorem MV.step_inv (P S : Nat) (s : MV) (e : MVEv)
    (hinv : s.length = s.ma.length) :
    (MV.step P S s e).length = (MV.step P S s e).ma.length := by
  cases e with
  | rst =>
    rw [MV.step_rst]
    rfl
  | upd v =>
    rw [MV.step_upd]
    cases hu : MV.update P S s v with
    | none =>
      dsimp only
      exact hinv
    | some r =>
      obtain ⟨hl, hm⟩ := MV.update_some_fields P S s v r hu
      dsimp only
      rw [hl, hm, MA.ma_update_length, hinv]

theorem MV.runEv_inv (P S : Nat) :
    ∀ (evs : List MVEv) (s : MV), s.length = s.ma.length →
      (MV.runEv P S s evs).length = (MV.runEv P S s evs).ma.length := by
  intro evs
  induction evs with
  | nil => intro s h; exact h
  | cons e evs ih =>
    intro s h
    exact ih _ (MV.step_inv P S s e h)

/-- C7: public operations never abort.  The internal unwrap of ma.get(0) in
MV::update never observes None in any state reachable from a fresh MV by any
sequence of update and reset calls (the outer Option models the panic, and it
is always Some); and the cursor produced by BaseIndicator::update is always a
valid array index, so the modulo arithmetic and indexing never go out of
bounds. -/
theorem C7_total_no_panic (P S N : Nat) (hN : 0 < N) {T : Type}
    (b : BaseIndicator T) (v : T) (evs : List MVEv) (x : ℚ) :
    (MV.update P S (MV.runEv P S MV.new evs) x).isSome = true ∧
    0 ≤ ((BaseIndicator.update N b v).2).pos ∧
    ((BaseIndicator.update N b v).2).pos < (N : Int) ∧
    (((BaseIndicator.update N b v).2).pos).toNat < N := by
  obtain ⟨hb0, hbN⟩ := BaseIndicator.update_pos_bounds N hN b v
  refine ⟨?_, hb0, hbN, by omega⟩
  exact MV.update_isSome P S _ x (MV.runEv_inv P S evs MV.new rfl)

theorem C7_total_no_panic_witness :
    0 < 2 ∧
    ((MV.update 2 1 (MV.runEv 2 1 MV.new
        [MVEv.upd 1, MVEv.rst, MVEv.upd 2, MVEv.upd 3]) 4).isSome = true ∧
     0 ≤ ((BaseIndicator.update 2 (BaseIndicator.new (0 : Int)) 9).2).pos ∧
     ((BaseIndicator.update 2 (BaseIndicator.new (0 : Int)) 9).2).pos < (2 : Int) ∧
     (((BaseIndicator.update 2 (BaseIndicator.new (0 : Int)) 9).2).pos).toNat < 2) :=
  ⟨by decide, C7_total_no_panic 2 1 2 (by decide) (BaseIndicator.new (0 : Int)) 9
    [MVEv.upd 1, MVEv.rst, MVEv.upd 2, MVEv.upd 3] 4⟩

theorem STOCH.update_snd_length (K D S : Nat) (s : STOCH) (v : Ohlcv) :
    ((STOCH.update K D S s v).2).length =
      if s.length < K then s.length + 1 else s.length := by
  by_cases h : (if s.length < K then s.length + 1 else s.length) < K <;>
    simp [STOCH.update, h]

theorem STOCH.stoch_update_snd_pos (K D S : Nat) (s : STOCH) (v : Ohlcv) :
    ((STOCH.update K D S s v).2).pos = (s.pos + 1) % K := by
  by_cases h : (if s.length < K then s.length + 1 else s.length) < K <;>
    simp [STOCH.update, h]

theorem STOCH.update_snd_high (K D S : Nat) (s : STOCH) (v : Ohlcv) :
    ((STOCH.update K D S s v).2).high_window =
      fun i => if i = s.pos then v.high else s.high_window i := by
  by_cases h : (if s.length < K then s.length + 1 else s.length) < K <;>
    simp [STOCH.update, h]

theorem STOCH.update_snd_low (K D S : Nat) (s : STOCH) (v : Ohlcv) :
    ((STOCH.update K D S s v).2).low_window =
      fun i => if i = s.pos then v.low else s.low_window i := by
  by_cases h : (if s.length < K then s.length + 1 else s.length) < K <;>
    simp [STOCH.update, h]

theorem foldl_minmax_const (h0 : ℚ) (hw lw : Nat → ℚ) :
    ∀ (L : List Nat), (∀ i ∈ L, hw (i + 1) = h0 ∧ lw (i + 1) = h0) →
      L.foldl (fun (a : ℚ × ℚ) i =>
        (if hw (i + 1) > a.1 then hw (i + 1) else a.1,
         if lw (i + 1) < a.2 then lw (i + 1) else a.2)) (h0, h0) = (h0, h0) := by
  intro L
  induction L with
  | nil => intro _; rfl
  | cons i L ih =>
    intro hmem
    obtain ⟨hh, hl⟩ := hmem i (by simp)
    simp only [List.foldl_cons, hh, hl, gt_iff_lt, lt_self_iff_false, if_false]
    exact ih (fun j hj => hmem j (by simp [hj]))

theorem STOCH.update_ready_k50 (K D S : Nat) (hK : 0 < K) (hS : 0 < S)
    (s : STOCH) (v : Ohlcv) (h0 : ℚ)
    (hguard : ¬ (if s.length < K then s.length + 1 else s.length) < K)
    (hvh : v.high = h0) (hvl : v.low = h0)
    (hwin : ∀ j, j < K → j ≠ s.pos → s.high_window j = h0 ∧ s.low_window j = h0) :
    ∃ d, (STOCH.update K D S s v).1 = some ⟨50, d⟩ := by
  have hW : ∀ j, j < K → (if j = s.pos then v.high else s.high_window j) = h0 := by
    intro j hj
    by_cases hw : j = s.pos
    · rw [if_pos hw, hvh]
    · rw [if_neg hw]
      exact (hwin j hj hw).1
  have hL : ∀ j, j < K → (if j = s.pos then v.low else s.low_window j) = h0 := by
    intro j hj
    by_cases hw : j = s.pos
    · rw [if_pos hw, hvl]
    · rw [if_neg hw]
      exact (hwin j hj hw).2
  unfold STOCH.update
  dsimp only
  rw [if_neg hguard]
  dsimp only
  have hfold : (List.range (K - 1)).foldl
      (fun (a : ℚ × ℚ) i =>
        (if (if i + 1 = s.pos then v.high else s.high_window (i + 1)) > a.1
         then (if i + 1 = s.pos then v.high else s.high_window (i + 1)) else a.1,
         if (if i + 1 = s.pos then v.low else s.low_window (i + 1)) < a.2
         then (if i + 1 = s.pos then v.low else s.low_window (i + 1)) else a.2))
      ((if 0 = s.pos then v.high else s.high_window 0),
       (if 0 = s.pos then v.low else s.low_window 0)) = (h0, h0) := by
    rw [hW 0 hK, hL 0 hK]
    exact foldl_minmax_const h0
      (fun j => if j = s.pos then v.high else s.high_window j)
      (fun j => if j = s.pos then v.low else s.low_window j)
      (List.range (K - 1))
      (fun i hi => ⟨hW (i + 1) (by
          rw [List.mem_range] at hi
          omega),
        hL (i + 1) (by
          rw [List.mem_range] at hi
          omega)⟩)
  rw [hfold]
  dsimp only
  rw [sub_self, if_pos rfl]
  exact ⟨_, BaseIndicator.get_update_zero S hS s.data _⟩

theorem STOCH.run_zero_range_aux (K D S : Nat) (hK : 0 < K) (hS : 0 < S) (h0 : ℚ) :
    ∀ (l : List Ohlcv), (∀ b ∈ l, b.high = h0 ∧ b.low = h0) →
      ∀ (s : STOCH) (c : Nat),
        s.length = min c K → s.pos = c % K →
        (∀ j, j < min c K → s.high_window j = h0 ∧ s.low_window j = h0) →
        ∀ i, i < l.length → K ≤ c + i + 1 →
          ∃ r, (STOCH.outputs K D S s l).getD i none = some r ∧ r.k = 50 := by
  intro l
  induction l with
  | nil =>
    intro hall s c hlen hpos hwin i hi hKi
    simp at hi
  | cons v l ih =>
    intro hall s c hlen hpos hwin i hi hKi
    obtain ⟨hvh, hvl⟩ := hall v (by simp)
    cases i with
    | zero =>
      simp only [STOCH.outputs, List.getD_cons_zero]
      have hguard : ¬ (if s.length < K then s.length + 1 else s.length) < K := by
        rw [hlen]
        by_cases hc : min c K < K
        · rw [if_pos hc]
          omega
        · rw [if_neg hc]
          omega
      have hwin' : ∀ j, j < K → j ≠ s.pos →
          s.high_window j = h0 ∧ s.low_window j = h0 := by
        intro j hj hne
        rw [hpos] at hne
        apply hwin
        rcases Nat.lt_or_ge c K with hcK | hcK
        · have hceq : c % K = c := Nat.mod_eq_of_lt hcK
          rw [hceq] at hne
          omega
        · omega
      obtain ⟨d, hd⟩ := STOCH.update_ready_k50 K D S hK hS s v h0 hguard hvh hvl hwin'
      exact ⟨⟨50, d⟩, hd, rfl⟩
    | succ i' =>
      simp only [STOCH.outputs, List.getD_cons_succ]
      apply ih (fun b hb => hall b (by simp [hb])) _ (c + 1)
      · rw [STOCH.update_snd_length, hlen]
        by_cases hc : min c K < K
        · rw [if_pos hc]
          omega
        · rw [if_neg hc]
          omega
      · rw [STOCH.stoch_update_snd_pos, hpos, Nat.mod_add_mod]
      · intro j hj
        rw [STOCH.update_snd_high, STOCH.update_snd_low]
        dsimp only
        by_cases hw : j = s.pos
        · rw [if_pos hw, if_pos hw, hvh, hvl]
          exact ⟨rfl, rfl⟩
        · rw [if_neg hw, if_neg hw]
          apply hwin
          rw [hpos] at hw
          rcases Nat.lt_or_ge c K with hcK | hcK
          · have hceq : c % K = c := Nat.mod_eq_of_lt hcK
            rw [hceq] at hw
            omega
          · omega
      · simpa using hi
      · omega

/-- C8: an indicator dividing by a high-minus-low range (STOCH's %K), fed
bars whose K-window has highest high equal to lowest low, returns the
documented neutral fallback 50 for %K on every such producing step rather
than a division error. -/
theorem C8_stoch_zero_range (K D S : Nat) (hK : 0 < K) (hD : 0 < D) (hS : 0 < S)
    (h0 : ℚ) (l : List Ohlcv) (hall : ∀ b ∈ l, b.high = h0 ∧ b.low = h0) :
    ∀ i, i < l.length → K ≤ i + 1 →
      ∃ r, (STOCH.outputs K D S STOCH.new l).getD i none = some r ∧ r.k = 50 := by
  intro i hi hKi
  have hnew1 : (STOCH.new).length = min 0 K := by
    rw [Nat.zero_min]
    rfl
  have hnew2 : (STOCH.new).pos = 0 % K := by
    rw [Nat.zero_mod]
    rfl
  exact STOCH.run_zero_range_aux K D S hK hS h0 l hall STOCH.new 0 hnew1 hnew2
    (by intro j hj; simp at hj) i hi (by omega)

theorem C8_stoch_zero_range_witness :
    (0 < 2 ∧ 0 < 2 ∧ 0 < 1) ∧
    (∀ i, i < ([⟨0, 100, 100, 100, 100, 0⟩, ⟨0, 100, 100, 100, 100, 0⟩] :
        List Ohlcv).length → 2 ≤ i + 1 →
      ∃ r, (STOCH.outputs 2 2 1 STOCH.new
          [⟨0, 100, 100, 100, 100, 0⟩, ⟨0, 100, 100, 100, 100, 0⟩]).getD i none
        = some r ∧ r.k = 50) :=
  ⟨⟨by decide, by decide, by decide⟩,
    C8_stoch_zero_range 2 2 1 (by decide) (by decide) (by decide) 100
      [⟨0, 100, 100, 100, 100, 0⟩, ⟨0, 100, 100, 100, 100, 0⟩]
      (by
        intro b hb
        simp only [List.mem_cons, List.not_mem_nil, or_false] at hb
        rcases hb with rfl | rfl
        · exact ⟨rfl, rfl⟩
        · exact ⟨rfl, rfl⟩)⟩

theorem EMA.ema_update_eq_warm (P S : Nat) (e : EMA) (v : ℚ)
    (h1 : e.length + 1 < P) :
    EMA.update P S e v = (none, { e with length := e.length + 1, prev := e.prev + v }) := by
  simp [EMA.update, h1]

theorem EMA.ema_update_eq_fill (P S : Nat) (e : EMA) (v : ℚ)
    (h2 : e.length + 1 = P) :
    EMA.update P S e v =
      (BaseIndicator.get S
          (BaseIndicator.update S e.data ((e.prev + v) / (P : ℚ))).2 0,
       { e with
           length := e.length + 1,
           prev := (e.prev + v) / (P : ℚ),
           data := (BaseIndicator.update S e.data ((e.prev + v) / (P : ℚ))).2 }) := by
  simp [EMA.update, h2, show ¬ e.length + 1 < P by omega]

theorem EMA.update_eq_next (P S : Nat) (e : EMA) (v : ℚ)
    (h1 : ¬ e.length + 1 < P) (h2 : e.length + 1 ≠ P) :
    EMA.update P S e v =
      (BaseIndicator.get S
          (BaseIndicator.update S e.data (v * e.alpha + e.prev * (1 - e.alpha))).2 0,
       { e with
           length := e.length + 1,
           prev := v * e.alpha + e.prev * (1 - e.alpha),
           data := (BaseIndicator.update S e.data
              (v * e.alpha + e.prev * (1 - e.alpha))).2 }) := by
  simp [EMA.update, h1, h2]

theorem EMA.update_get_some (P : Nat) (e : EMA) (v : ℚ)
    (h : P ≤ e.length + 1) :
    ∃ x, EMA.get 1 (EMA.update P 1 e v).2 0 = some x := by
  by_cases h2 : e.length + 1 = P
  · rw [EMA.ema_update_eq_fill P 1 e v h2]
    exact ⟨(e.prev + v) / (P : ℚ), BaseIndicator.get_update_zero 1 (by omega) _ _⟩
  · rw [EMA.update_eq_next P 1 e v (by omega) h2]
    exact ⟨v * e.alpha + e.prev * (1 - e.alpha),
      BaseIndicator.get_update_zero 1 (by omega) _ _⟩

theorem MACD.update_char (SHORT LONG DIFF S : Nat) (hS : 0 < S) (m : MACD) (v : ℚ)
    (hsh : m.short_ema.length = m.counter) (hlo : m.long_ema.length = m.counter) :
    ((MACD.update SHORT LONG DIFF S m v).1 = none ↔
        m.counter + 1 < max SHORT LONG) ∧
    ((MACD.update SHORT LONG DIFF S m v).2).counter = m.counter + 1 ∧
    ((MACD.update SHORT LONG DIFF S m v).2).short_ema.length = m.counter + 1 ∧
    ((MACD.update SHORT LONG DIFF S m v).2).long_ema.length = m.counter + 1 := by
  have hmax : (if SHORT < LONG then LONG else SHORT) = max SHORT LONG := by
    split <;> omega
  unfold MACD.update
  dsimp only
  rw [hmax]
  by_cases h0 : m.counter + 1 < max SHORT LONG
  · rw [if_pos h0]
    refine ⟨by simp [h0], rfl, ?_, ?_⟩
    · dsimp only
      rw [EMA.ema_update_length, hsh]
    · dsimp only
      rw [EMA.ema_update_length, hlo]
  · rw [if_neg h0]
    obtain ⟨sv, hsv⟩ := EMA.update_get_some SHORT m.short_ema v (by omega)
    obtain ⟨lv, hlv⟩ := EMA.update_get_some LONG m.long_ema v (by omega)
    rw [hsv, hlv]
    dsimp only
    cases hsig : EMA.get 1 (EMA.update DIFF 1 m.diff_ema (sv - lv)).2 0 with
    | none =>
      dsimp only
      refine ⟨?_, rfl, ?_, ?_⟩
      · rw [BaseIndicator.get_update_zero S hS]
        simp [h0]
      · dsimp only
        rw [EMA.ema_update_length, hsh]
      · dsimp only
        rw [EMA.ema_update_length, hlo]
    | some sig =>
      dsimp only
      refine ⟨?_, rfl, ?_, ?_⟩
      · rw [BaseIndicator.get_update_zero S hS]
        simp [h0]
      · dsimp only
        rw [EMA.ema_update_length, hsh]
      · dsimp only
        rw [EMA.ema_update_length, hlo]

theorem MACD.outputs_char (SHORT LONG DIFF S : Nat) (hS : 0 < S) :
    ∀ (l : List ℚ) (m : MACD) (c : Nat),
      m.counter = c → m.short_ema.length = c → m.long_ema.length = c →
      (∀ i, i < l.length →
        ((MACD.outputs SHORT LONG DIFF S m l).getD i (some 0) = none ↔
          c + i + 1 < max SHORT LONG)) ∧
      (MACD.run SHORT LONG DIFF S m l).short_ema.length = c + l.length ∧
      (MACD.run SHORT LONG DIFF S m l).long_ema.length = c + l.length := by
  intro l
  induction l with
  | nil =>
    intro m c hc hsh hlo
    refine ⟨?_, by simpa using hsh, by simpa using hlo⟩
    intro i hi
    simp at hi
  | cons v l ih =>
    intro m c hc hsh hlo
    obtain ⟨hiff, hc', hsh', hlo'⟩ :=
      MACD.update_char SHORT LONG DIFF S hS m v (by omega) (by omega)
    rw [hc] at hiff hc' hsh' hlo'
    obtain ⟨ihiff, ihsh, ihlo⟩ := ih (MACD.update SHORT LONG DIFF S m v).2 (c + 1)
      hc' hsh' hlo'
    refine ⟨?_, ?_, ?_⟩
    · intro i hi
      cases i with
      | zero =>
        simp only [MACD.outputs, List.getD_cons_zero]
        rw [hiff]
      | succ i' =>
        simp only [MACD.outputs, List.getD_cons_succ]
        rw [ihiff i' (by simp at hi; omega)]
        omega
    · simp only [MACD.run]
      rw [ihsh]
      simp
      omega
    · simp only [MACD.run]
      rw [ihlo]
      simp
      omega

theorem STOCH.update_snd_k_ma_warm (K D S : Nat) (s : STOCH) (v : Ohlcv)
    (h : (if s.length < K then s.length + 1 else s.length) < K) :
    ((STOCH.update K D S s v).2).k_ma = s.k_ma := by
  simp [STOCH.update, h]

theorem STOCH.update_fallback_d (K D S : Nat) (hS : 0 < S) (hD : 2 ≤ D)
    (s : STOCH) (v : Ohlcv)
    (hguard : ¬ (if s.length < K then s.length + 1 else s.length) < K)
    (hk_ma : s.k_ma = MA.new) :
    ∃ kv, (STOCH.update K D S s v).1 = some ⟨kv, kv⟩ := by
  unfold STOCH.update
  dsimp only
  rw [if_neg hguard]
  dsimp only
  rw [hk_ma]
  rw [MA.ma_update_eq_warm D 1 MA.new _
    (by have h : MA.new.length = 0 := rfl; omega)
    (by have h : MA.new.length = 0 := rfl; omega)]
  dsimp only
  have hnone : ∀ x : ℚ, MA.get 1
      { accum := MA.new.accum + x, length := MA.new.length + 1, data := MA.new.data,
        prevs := fun i => if i = MA.new.pos then x else MA.new.prevs i,
        pos := (MA.new.pos + 1) % D } 0 = none := by
    intro x
    rfl
  rw [hnone]
  dsimp only [Option.getD]
  exact ⟨_, BaseIndicator.get_update_zero S hS s.data _⟩

theorem STOCH.kth_update_aux (K D S : Nat) (hS : 0 < S) (hD : 2 ≤ D) :
    ∀ (l : List Ohlcv) (s : STOCH) (c : Nat),
      s.length = min c K → s.k_ma = MA.new → c + l.length = K → l ≠ [] →
      ∃ kv, (STOCH.outputs K D S s l).getD (l.length - 1) none = some ⟨kv, kv⟩ := by
  intro l
  induction l with
  | nil =>
    intro s c hlen hkma hc hne
    exact absurd rfl hne
  | cons v l ih =>
    intro s c hlen hkma hc hne
    rcases eq_or_ne l [] with rfl | hl
    · simp only [List.length_cons, List.length_nil, Nat.zero_add, Nat.add_sub_cancel]
      simp only [STOCH.outputs, List.getD_cons_zero]
      apply STOCH.update_fallback_d K D S hS hD s v _ hkma
      rw [hlen]
      simp only [List.length_cons, List.length_nil] at hc
      by_cases hcK : min c K < K
      · rw [if_pos hcK]
        omega
      · rw [if_neg hcK]
        omega
    · have hlpos : 0 < l.length := List.length_pos.mpr hl
      have hcK : c + 1 < K := by
        simp only [List.length_cons] at hc
        omega
      have hguard : (if s.length < K then s.length + 1 else s.length) < K := by
        rw [hlen]
        by_cases hm : min c K < K
        · rw [if_pos hm]
          omega
        · rw [if_neg hm]
          omega
      have hstep : (v :: l).length - 1 = (l.length - 1) + 1 := by
        simp only [List.length_cons]
        omega
      rw [hstep]
      simp only [STOCH.outputs, List.getD_cons_succ]
      apply ih (STOCH.update K D S s v).2 (c + 1)
      · rw [STOCH.update_snd_length, hlen]
        by_cases hm : min c K < K
        · rw [if_pos hm]
          omega
        · rw [if_neg hm]
          omega
      · rw [STOCH.update_snd_k_ma_warm K D S s v hguard, hkma]
      · simp only [List.length_cons] at hc
        omega
      · exact hl

/-- C2 (amended): a composite propagates upstream unavailability for the
values its returned formula needs: MACD returns unavailable exactly while
counter < max(SHORT, LONG) (at least max(P1,P2)-1 updates) and available
from then on, while advancing both sub-EMAs on every call including warmup;
STOCH, however, does not delay its K-th output for the %D smoothing: when the
D-period average of %K is not yet ready it substitutes %K for %D
(unwrap_or(k)), so STOCH<K,D,S> returns an available result ⟨k, k⟩ on its
K-th update rather than unavailable. -/
theorem C2_composite_warmup_propagation (SHORT LONG DIFF K D S S2 : Nat)
    (hS : 0 < S) (hS2 : 0 < S2) (hK : 0 < K) (hD : 2 ≤ D) (l : List ℚ) :
    (∀ i, i < l.length →
      ((MACD.outputs SHORT LONG DIFF S (MACD.new SHORT LONG DIFF) l).getD i (some 0)
          = none ↔ i + 1 < max SHORT LONG)) ∧
    (MACD.run SHORT LONG DIFF S (MACD.new SHORT LONG DIFF) l).short_ema.length
        = l.length ∧
    (MACD.run SHORT LONG DIFF S (MACD.new SHORT LONG DIFF) l).long_ema.length
        = l.length ∧
    (∀ lb : List Ohlcv, lb.length = K →
      ∃ kv, (STOCH.outputs K D S2 STOCH.new lb).getD (K - 1) none
        = some ⟨kv, kv⟩) := by
  obtain ⟨hiff, hsh, hlo⟩ := MACD.outputs_char SHORT LONG DIFF S hS l
    (MACD.new SHORT LONG DIFF) 0 rfl rfl rfl
  refine ⟨?_, by simpa using hsh, by simpa using hlo, ?_⟩
  · intro i hi
    have h := hiff i hi
    simpa using h
  · intro lb hlb
    have hne : lb ≠ [] := by
      intro h
      rw [h] at hlb
      simp at hlb
      omega
    have h := STOCH.kth_update_aux K D S2 hS2 hD lb STOCH.new 0
      (by rw [Nat.zero_min]; rfl) rfl (by omega) hne
    rw [hlb] at h
    exact h

theorem C2_counterexample :
    ((STOCH.outputs 2 3 1 STOCH.new
        [⟨0, 1, 2, 0, 1, 1⟩, ⟨0, 1, 2, 0, 1, 1⟩]).getD 1 none).isSome = true := by
  decide

theorem C2_composite_warmup_propagation_witness :
    (0 < 1 ∧ 0 < 1 ∧ 0 < 2 ∧ 2 ≤ 3) ∧
    ((∀ i, i < ([1, 2, 3, 4] : List ℚ).length →
      ((MACD.outputs 2 3 2 1 (MACD.new 2 3 2) [1, 2, 3, 4]).getD i (some 0)
          = none ↔ i + 1 < max 2 3)) ∧
     (MACD.run 2 3 2 1 (MACD.new 2 3 2) [1, 2, 3, 4]).short_ema.length = 4 ∧
     (MACD.run 2 3 2 1 (MACD.new 2 3 2) [1, 2, 3, 4]).long_ema.length = 4 ∧
     (∀ lb : List Ohlcv, lb.length = 2 →
       ∃ kv, (STOCH.outputs 2 3 1 STOCH.new lb).getD (2 - 1) none
         = some ⟨kv, kv⟩)) :=
  ⟨⟨by decide, by decide, by decide, by decide⟩,
    C2_composite_warmup_propagation 2 3 2 2 3 1 1
      (by decide) (by decide) (by decide) (by decide) [1, 2, 3, 4]⟩

end Tzu
